import Mathlib

/-!
Shallow embedding of the DS210 final-project NHL statistics pipeline
(`src/finalproject/src/cleaning.rs` and `src/finalproject/src/main.rs`).

Modelling conventions:
* Rust `f64` is modelled by `NHL.F64`: an exact rational for finite values plus
  the special values `inf`, `neginf`, `nan`.  All arithmetic the program
  performs on finite values (weighted sums, division by a positive maximum)
  is exact in binary floating point on the concrete inputs considered here,
  so the rational model is faithful for the properties proved below.
* Rust `HashMap` is modelled by an association list.  Insertion overwrites
  the value of an existing key in place; iteration order is the list order
  (Rust leaves `HashMap` iteration order unspecified, so any fixed order is
  an admissible model).  Well-formed maps have pairwise-distinct keys.
* A Rust panic from out-of-bounds `Vec` indexing is modelled by `Option`:
  `none` means the corresponding loop panics.
-/

set_option linter.unusedVariables false

namespace NHL

/-- `Position` from `cleaning.rs`. -/
inductive Position where
  | Center
  | Wing
  | Defense
deriving DecidableEq, Repr

/-- Model of Rust `f64`: exact rationals plus the non-finite values. -/
inductive F64 where
  | fin (q : ℚ)
  | inf
  | neginf
  | nan
deriving DecidableEq, Repr

namespace F64

/-- `f64::is_finite`. -/
def is_finite : F64 → Bool
  | fin _ => true
  | _ => false

/-- `f64` strict `<` (comparisons involving `nan` are false). -/
def lt : F64 → F64 → Bool
  | fin a, fin b => decide (a < b)
  | fin _, inf => true
  | neginf, fin _ => true
  | neginf, inf => true
  | _, _ => false

/-- `f64` strict `>`. -/
def gt (x y : F64) : Bool := lt y x

/-- `f64` division.  In this development it is only applied with a finite
dividend and a finite positive divisor (the normalizer guards on
`max_vals[i] > 0.0 && metric.is_finite()`), where it is exact. -/
def div : F64 → F64 → F64
  | fin a, fin b => if b = 0 then nan else fin (a / b)
  | _, _ => nan

/-- The rational value of a finite `F64` (junk value `0` otherwise; only
used under an all-finite guard). -/
def toRat : F64 → ℚ
  | fin q => q
  | _ => 0

end F64

/-- The double-quote character stripped by `trim_matches('"')`. -/
def quoteChar : Char := Char.ofNat 34

/-- Split a character list at every occurrence of `sep`
(the model of Rust `str::split(sep)`, working on the character sequence). -/
def splitChar (sep : Char) : List Char → List (List Char)
  | [] => [[]]
  | c :: rest =>
      match splitChar sep rest with
      | [] => [[c]]
      | g :: gs => if c = sep then [] :: g :: gs else (c :: g) :: gs

/-- Rust `str::trim`: strip leading and trailing whitespace. -/
def trimL (cs : List Char) : List Char :=
  ((cs.dropWhile Char.isWhitespace).reverse.dropWhile Char.isWhitespace).reverse

/-- Rust `str::trim_matches('"')`: strip all leading and trailing `"`. -/
def trimQuotesL (cs : List Char) : List Char :=
  ((cs.dropWhile (fun c => c = quoteChar)).reverse.dropWhile
      (fun c => c = quoteChar)).reverse

/-- The field list of one CSV line:
`line.split(',').map(|f| f.trim().trim_matches('"'))`. -/
def fieldsOf (line : String) : List String :=
  (splitChar ',' line.data).map (fun cs => ⟨trimQuotesL (trimL cs)⟩)

/-- Numeric value of a digit string (no validation; callers validate). -/
def natVal (cs : List Char) : ℕ :=
  cs.foldl (fun a c => 10 * a + (c.toNat - 48)) 0

/-- Parse a non-empty all-digit character list. -/
def digitsVal (cs : List Char) : Option ℕ :=
  if cs ≠ [] ∧ cs.all Char.isDigit then some (natVal cs) else none

/-- Parse a decimal mantissa `digits[.digits]` (at least one digit). -/
def parseMantissa (cs : List Char) : Option ℚ :=
  match cs.splitOn '.' with
  | [ip] => (digitsVal ip).map (fun n => (n : ℚ))
  | [ip, fp] =>
      if (ip.all Char.isDigit ∧ fp.all Char.isDigit) ∧ (ip ≠ [] ∨ fp ≠ []) then
        some ((natVal ip : ℚ) + (natVal fp : ℚ) / (10 : ℚ) ^ fp.length)
      else none
  | _ => none

/-- Parse an exponent part `[+|-]digits`. -/
def parseExpPart (cs : List Char) : Option ℤ :=
  match cs with
  | '+' :: rest => (digitsVal rest).map (fun n => (n : ℤ))
  | '-' :: rest => (digitsVal rest).map (fun n => -(n : ℤ))
  | _ => (digitsVal cs).map (fun n => (n : ℤ))

/-- Parse the body of an `f64` literal after the optional sign
(`cs` already lower-cased). -/
def parseCore (neg : Bool) (cs : List Char) : Option F64 :=
  if cs = "inf".data ∨ cs = "infinity".data then
    some (if neg then F64.neginf else F64.inf)
  else if cs = "nan".data then some F64.nan
  else
    match cs.splitOn 'e' with
    | [m] => (parseMantissa m).map (fun q => F64.fin (if neg then -q else q))
    | [m, ex] =>
        (parseMantissa m).bind fun q =>
          (parseExpPart ex).map fun z =>
            F64.fin ((if neg then -q else q) * (10 : ℚ) ^ z)
    | _ => none

/-- Model of `str::parse::<f64>()`: optional sign, then `inf`/`nan`
(case-insensitive) or a decimal with optional fraction and exponent.
Rationals do not overflow, so huge exponents stay finite in the model;
none of the claims depends on that corner. -/
def parseF64 (s : String) : Option F64 :=
  match s.data.map Char.toLower with
  | [] => none
  | '+' :: rest => parseCore false rest
  | '-' :: rest => parseCore true rest
  | cs => parseCore false cs

/-- `default_metric` from `cleaning.rs`: always `0.0`. -/
def default_metric (metric_name : String) (player_name : String) : F64 :=
  F64.fin 0

/-- `fields[i].parse::<f64>().unwrap_or_else(|_| default_metric(..))`. -/
def parseOrDefault (s : String) (metric_name : String) (player_name : String) : F64 :=
  match parseF64 s with
  | some v => v
  | none => default_metric metric_name player_name

/-- The Center metric vector: columns 33, 9, 27, 7, 10. -/
def centerVec (fields : List String) (name : String) : List F64 :=
  [ parseOrDefault (fields.getD 33 "") "Faceoffs %" name,
    parseOrDefault (fields.getD 9 "") "Total Points" name,
    parseOrDefault (fields.getD 27 "") "Takeaways" name,
    parseOrDefault (fields.getD 7 "") "First Assists" name,
    parseOrDefault (fields.getD 10 "") "IPP" name ]

/-- The Wing metric vector: columns 5, 12, 18, 9, 28. -/
def wingVec (fields : List String) (name : String) : List F64 :=
  [ parseOrDefault (fields.getD 5 "") "Goals" name,
    parseOrDefault (fields.getD 12 "") "SH%" name,
    parseOrDefault (fields.getD 18 "") "Rush Attempts" name,
    parseOrDefault (fields.getD 9 "") "Total Points" name,
    parseOrDefault (fields.getD 28 "") "Hits" name ]

/-- The Defense metric vector: columns 28, 30, 27, 9, 18. -/
def defenseVec (fields : List String) (name : String) : List F64 :=
  [ parseOrDefault (fields.getD 28 "") "Hits" name,
    parseOrDefault (fields.getD 30 "") "Shots Blocked" name,
    parseOrDefault (fields.getD 27 "") "Takeaways" name,
    parseOrDefault (fields.getD 9 "") "Total Points" name,
    parseOrDefault (fields.getD 18 "") "Rush Attempts" name ]

/-- Association-list model of `HashMap<Position, Vec<f64>>`. -/
abbrev Metrics := List (Position × List F64)

/-- `HashMap::get`. -/
def getM (m : Metrics) (p : Position) : Option (List F64) :=
  (m.find? (fun pv => pv.1 = p)).map (fun pv => pv.2)

/-- `HashMap::insert`: overwrite the value of an existing key, else append. -/
def insertM : Metrics → Position → List F64 → Metrics
  | [], k, v => [(k, v)]
  | pv :: rest, k, v =>
      if pv.1 = k then (k, v) :: rest else pv :: insertM rest k v

/-- `HashMap::entry(k).or_insert_with(Vec::new).extend(v)`. -/
def extendM : Metrics → Position → List F64 → Metrics
  | [], k, v => [(k, v)]
  | pv :: rest, k, v =>
      if pv.1 = k then (k, pv.2 ++ v) :: rest else pv :: extendM rest k v

/-- The slash-separated tokens of a position field
(`position_str.split('/')`). -/
def posTokens (position_str : String) : List String :=
  (splitChar '/' position_str.data).map (fun cs => (⟨cs⟩ : String))

/-- The `for pos in position_str.split('/')` loop of `clean_fields`.
The Rust code also sets two local flags `has_left_wing`/`has_right_wing`
that are never read afterwards; they are omitted as dead code. -/
def processTokens (fields : List String) (name : String) :
    List String → List Position → Metrics → Option (List Position × Metrics)
  | [], ps, ms => some (ps, ms)
  | tok :: rest, ps, ms =>
      if tok = "C" then
        processTokens fields name rest (ps ++ [Position.Center])
          (insertM ms Position.Center (centerVec fields name))
      else if tok = "L" ∨ tok = "R" then
        processTokens fields name rest (ps ++ [Position.Wing])
          (extendM ms Position.Wing (wingVec fields name))
      else if tok = "D" then
        processTokens fields name rest (ps ++ [Position.Defense])
          (insertM ms Position.Defense (defenseVec fields name))
      else none

/-- `clean_fields` from `cleaning.rs`.  The Rust indexings `fields[1]`,
`fields[2]` and the metric columns (max index 33) are guarded by the
`fields.len() < 34` check, so the `getD` defaults are never hit. -/
def clean_fields (line : String) : Option (String × List Position × Metrics) :=
  let fields := fieldsOf line
  if fields.length < 34 then none
  else
    let player_name := fields.getD 1 ""
    let position_str := fields.getD 2 ""
    if player_name = "" ∨ position_str = "" then none
    else
      (processTokens fields player_name (posTokens position_str) [] []).map
        (fun pm => (player_name, pm.1, pm.2))

/-- The position field of a line after cleaning (`fields[2]`). -/
def posStrOf (line : String) : String := (fieldsOf line).getD 2 ""

/-- `Player` from `cleaning.rs`. -/
structure Player where
  name : String
  positions : List Position
  metrics : Metrics
deriving DecidableEq, Repr

/-- Association-list model of the `HashMap<String, Player>` registry. -/
abbrev Registry := List (String × Player)

/-- `players.insert(name, player)`: overwrite an existing key, else append. -/
def insertPlayer : Registry → String → Player → Registry
  | [], k, pl => [(k, pl)]
  | np :: rest, k, pl =>
      if np.1 = k then (k, pl) :: rest else np :: insertPlayer rest k pl

/-- One iteration of the shared row loop: parse a line with `clean_fields`
and insert the player on success, skip the line on failure. -/
def buildStep (reg : Registry) (line : String) : Registry :=
  match clean_fields line with
  | some r => insertPlayer reg r.1 ⟨r.1, r.2.1, r.2.2⟩
  | none => reg

/-- `process_file` from `cleaning.rs`: `lines.next()` discards the first
line, then every remaining line goes through `clean_fields`. -/
def process_file (lines : List String) : Registry :=
  (lines.drop 1).foldl buildStep []

/-- One iteration of the row loop in `main` (`main.rs`), which additionally
counts processed and skipped rows.  State: (players, processed, skipped). -/
def mainStep (acc : Registry × ℕ × ℕ) (line : String) : Registry × ℕ × ℕ :=
  match clean_fields line with
  | some r => (insertPlayer acc.1 r.1 ⟨r.1, r.2.1, r.2.2⟩, acc.2.1 + 1, acc.2.2)
  | none => (acc.1, acc.2.1, acc.2.2 + 1)

/-- The row loop of `main` in `main.rs`: it iterates over every line of the
file, including the first one (there is no `lines.next()` here). -/
def mainLoop (lines : List String) : Registry × ℕ × ℕ :=
  lines.foldl mainStep ([], 0, 0)

/-- The per-position weight vector and scaling factor of `calculate_score`
(`main.rs`). -/
def weightsFor : Position → List ℚ × ℚ
  | Position.Center => ([0.25, 0.3, 0.15, 0.2, 0.1], 5)
  | Position.Wing => ([0.35, 0.25, 0.15, 0.2, 0.05], 5)
  | Position.Defense => ([0.15, 0.3, 0.2, 0.2, 0.15], 5)

/-- `metrics.iter().zip(weights).map(|(m, w)| m * w).sum()`.  Only applied
under the all-finite guard, where `toRat` is the exact value. -/
def weightedSum (metrics : List F64) (weights : List ℚ) : ℚ :=
  ((metrics.zip weights).map (fun mw => mw.1.toRat * mw.2)).sum

/-- `100.0 / (1.0 + (-x).exp())` followed by `.clamp(0.0, 100.0)`. -/
noncomputable def squash (x : ℚ) : ℝ :=
  min (max (100 / (1 + Real.exp (-(x : ℝ)))) 0) 100

/-- `calculate_score` from `main.rs`. -/
noncomputable def calculate_score (position : Position) (metrics : List F64) : ℝ :=
  let wf := weightsFor position
  if metrics.length ≠ wf.1.length ∨ metrics.any (fun m => !m.is_finite) = true then 0
  else squash (wf.2 * weightedSum metrics wf.1)

/-- `Option`-propagating left fold: models an imperative loop whose body can
panic (`none`). -/
def foldlMO (f : β → α → Option β) : β → List α → Option β
  | b, [] => some b
  | b, a :: l => (f b a).bind (fun b2 => foldlMO f b2 l)

/-- `Option`-propagating map: models an in-place update loop over a list
whose body can panic (`none`). -/
def mapMO (f : α → Option α) : List α → Option (List α)
  | [] => some []
  | a :: l => (f a).bind (fun b => (mapMO f l).map (fun l2 => b :: l2))

/-- The inner update loop of the first phase of `normalize_metrics`:
`for (i, metric) in metrics.iter().enumerate() { if metric.is_finite() &&
metric > max[i] { max[i] = metric } }`.  `none` models the panic of
`max_metrics[&position][i]` when `i` runs past the end of the max vector. -/
def updateMax : List F64 → List F64 → Option (List F64)
  | maxv, [] => some maxv
  | [], _ :: _ => none
  | m :: ms, x :: xs =>
      (updateMax ms xs).map
        (fun rest => (if x.is_finite && F64.gt x m then x else m) :: rest)

/-- One `(position, metrics)` entry of the first phase of
`normalize_metrics`: `max_metrics.entry(position).or_insert_with(|| vec![0.0;
metrics.len()])` followed by the elementwise max update. -/
def maxEntryStep (acc : Metrics) (pv : Position × List F64) : Option Metrics :=
  let cur := match getM acc pv.1 with
    | some v => v
    | none => List.replicate pv.2.length (F64.fin 0)
  (updateMax cur pv.2).map (fun newv => insertM acc pv.1 newv)

/-- The first phase of `normalize_metrics`: fold over all players and all
their metric entries, computing per-position elementwise maxima. -/
def computeMax (pls : List Player) : Option Metrics :=
  foldlMO (fun acc pl => foldlMO maxEntryStep acc pl.metrics) [] pls

/-- The inner rescale loop of the second phase of `normalize_metrics`:
`for (i, metric) in metrics.iter_mut().enumerate() { if max_vals[i] > 0.0 &&
metric.is_finite() { *metric /= max_vals[i] } else { *metric = 0.0 } }`.
`none` models the panic of `max_vals[i]` going out of bounds. -/
def scaleVec : List F64 → List F64 → Option (List F64)
  | _, [] => some []
  | [], _ :: _ => none
  | m :: ms, x :: xs =>
      (scaleVec ms xs).map
        (fun rest =>
          (if F64.gt m (F64.fin 0) && x.is_finite then F64.div x m
           else F64.fin 0) :: rest)

/-- The second phase of `normalize_metrics` for a single player:
`for (position, metrics) in &mut player.metrics { if let Some(max_vals) =
max_metrics.get(position) { ... } }`. -/
def normalizePlayer (maxm : Metrics) (pl : Player) : Option Player :=
  (mapMO
      (fun pv =>
        match getM maxm pv.1 with
        | none => some pv
        | some maxv => (scaleVec maxv pv.2).map (fun v => (pv.1, v)))
      pl.metrics).map
    (fun ms => { pl with metrics := ms })

/-- `normalize_metrics` from `cleaning.rs`.  `none` models a panic from
out-of-bounds indexing into a per-position max vector. -/
def normalize_metrics (reg : Registry) : Option Registry :=
  (computeMax (reg.map (fun np => np.2))).bind fun maxm =>
    mapMO
      (fun np => (normalizePlayer maxm np.2).map (fun pl => (np.1, pl)))
      reg

/-! ### Spec-side description of normalization (for claim C2) -/

/-- The finite metric value of a player at `(position, index)`, if any. -/
def finAt (pl : Player) (p : Position) (i : ℕ) : Option ℚ :=
  match getM pl.metrics p with
  | some v =>
      match v[i]? with
      | some (F64.fin q) => some q
      | _ => none
  | none => none

/-- Spec-side elementwise maximum at `(position, index)` over all players,
over finite values only.  The fold starts at `0`, exactly as the code
initializes the max vector with `0.0`; whenever this maximum is positive it
coincides with the plain maximum over the finite values. -/
def specMaxQ (pls : List Player) (p : Position) (i : ℕ) : ℚ :=
  (pls.filterMap (fun pl => finAt pl p i)).foldl max 0

/-- Spec-side normalization of a single value: divide by the population
maximum when that maximum is positive and the value is finite, else `0`. -/
def specNormOne (pls : List Player) (p : Position) (i : ℕ) (x : F64) : F64 :=
  if 0 < specMaxQ pls p i ∧ x.is_finite = true then
    F64.div x (F64.fin (specMaxQ pls p i))
  else F64.fin 0

/-- Spec-side normalization of a whole metric vector. -/
def specNormVec (pls : List Player) (p : Position) (v : List F64) : List F64 :=
  List.zipWith (fun i x => specNormOne pls p i x) (List.range v.length) v

/-- Modelled from the spec's description of the Normalizer (§4.4): every
player's value at `(position, index)` is divided by the positive population
maximum when finite, and set to `0.0` otherwise. -/
def normalize_spec (reg : Registry) : Registry :=
  reg.map fun np =>
    (np.1,
      { np.2 with
        metrics := np.2.metrics.map fun pv =>
          (pv.1, specNormVec (reg.map (fun np2 => np2.2)) pv.1 pv.2) })

/-- First recorded vector length for a position (the first phase of
`normalize_metrics` sizes the max vector from the first vector it meets). -/
def firstLen (pls : List Player) (p : Position) : Option ℕ :=
  (pls.filterMap (fun pl => (getM pl.metrics p).map List.length)).head?

/-- One elementwise step of the max-update loop of `normalize_metrics`. -/
def maxComb (m x : F64) : F64 :=
  if x.is_finite && F64.gt x m then x else m

/-- One elementwise step of the rescale loop of `normalize_metrics`. -/
def scaleComb (m x : F64) : F64 :=
  if F64.gt m (F64.fin 0) && x.is_finite then F64.div x m else F64.fin 0

/-- Folding one vector into a running elementwise maximum, at the level of
rationals: the updated maximum at index `i`. -/
def bumpQ (g : ℕ → ℚ) (v : List F64) (i : ℕ) : ℚ :=
  match v[i]? with
  | some (F64.fin q) => max (g i) q
  | _ => g i

/-- Invariant of the first phase of `normalize_metrics`: after processing
the players `seen`, the accumulated max map stores, for every position held
by some seen player, a vector sized by the first vector encountered whose
`i`-th entry is the running finite maximum (with floor `0`). -/
def MaxInv (acc : Metrics) (seen : List Player) : Prop :=
  ∀ p, getM acc p
    = (firstLen seen p).map
        (fun n => (List.range n).map (fun i => F64.fin (specMaxQ seen p i)))

/-- Well-formedness of the association-list model of a `HashMap`:
pairwise-distinct keys (a real `HashMap` can never present duplicate keys). -/
def keysNodupB (pls : List Player) : Bool :=
  pls.all (fun pl => decide (pl.metrics.map Prod.fst).Nodup)

/-- All metric vectors stored for the same position have equal length,
across all players and entries. -/
def uniformLensB (pls : List Player) : Bool :=
  pls.all fun pl => pls.all fun pl2 =>
    pl.metrics.all fun pv => pl2.metrics.all fun pv2 =>
      !(decide (pv.1 = pv2.1)) || (pv.2.length == pv2.2.length)

/-! ### Structural acceptance predicate (for claim C7) -/

/-- Is a position token `L` or `R`? -/
def isLR (t : String) : Bool := t == "L" || t == "R"

/-- Is a position token one of the four accepted codes? -/
def isValidTok (t : String) : Bool := t == "C" || isLR t || t == "D"

/-- A row is structurally acceptable: at least 34 fields, non-empty name and
position fields, and every slash-separated position token is one of
`C`, `L`, `R`, `D`.  The metric fields play no part in this. -/
def rowOK (line : String) : Bool :=
  let fields := fieldsOf line
  decide (34 ≤ fields.length) &&
    !(decide (fields.getD 1 "" = "")) &&
    !(decide (fields.getD 2 "" = "")) &&
    (posTokens (fields.getD 2 "")).all isValidTok

/-! ### Interactive query surface (for claim C8) -/

/-- Model of Rust `str::to_lowercase` (per-character lowering; all names in
scope are ASCII, where the two agree). -/
def lowerStr (s : String) : String := ⟨s.data.map Char.toLower⟩

/-- The lookup of the query loop in `main`:
`players.iter().find(|(name, _)| name.to_lowercase() == input.trim().to_lowercase())`. -/
def queryPlayer (players : Registry) (input : String) : Option (String × Player) :=
  players.find? (fun np => lowerStr np.1 = lowerStr (⟨trimL input.data⟩ : String))

/-- The `(position, score)` pairs the query loop prints: one pair per entry
of `player.positions` whose metrics are present. -/
noncomputable def scorePairs (pl : Player) : List (Position × ℝ) :=
  pl.positions.filterMap fun pos =>
    (getM pl.metrics pos).map (fun ms => (pos, calculate_score pos ms))

/-- The running total the query loop accumulates
(`total_score += score` over `player.positions`). -/
noncomputable def totalScore (pl : Player) : ℝ :=
  pl.positions.foldl
    (fun acc pos =>
      match getM pl.metrics pos with
      | some ms => acc + calculate_score pos ms
      | none => acc)
    0

/-- The observable outcome of one query-loop iteration. -/
inductive QueryResult where
  | found (name : String) (scores : List (Position × ℝ)) (total : ℝ)
  | notFound

/-- One iteration of the query loop of `main`: case-insensitive lookup,
then either the per-position scores plus the running total, or the
not-found message. -/
noncomputable def runQuery (players : Registry) (input : String) : QueryResult :=
  match queryPlayer players input with
  | some np => QueryResult.found np.1 (scorePairs np.2) (totalScore np.2)
  | none => QueryResult.notFound

/-! ### Concrete demonstration inputs used by witnesses and counterexamples -/

/-- A valid 34-field row whose position field is `L`. -/
def lineL : String :=
  "1,Player One,L,,,3,,,,7,,,2,,,,,,2,,,,,,,,,,4,,,,,,"

/-- A valid 34-field row whose position field is `L/R`. -/
def lineLR : String :=
  "1,Player One,L/R,,,3,,,,7,,,2,,,,,,2,,,,,,,,,,4,,,,,,"

/-- A valid 34-field row whose position field is `C`. -/
def lineC : String :=
  "1,Player One,C,,,,,7,,9,1,,,,,,,,,,,,,,,,,3,,,,,,33"

/-- Wing player with metrics `[10, 20, 30]` (the Rust unit test input). -/
def demoWingA : Player :=
  ⟨"Player A", [Position.Wing],
    [(Position.Wing, [F64.fin 10, F64.fin 20, F64.fin 30])]⟩

/-- Wing player with metrics `[20, 10, 40]` (the Rust unit test input). -/
def demoWingB : Player :=
  ⟨"Player B", [Position.Wing],
    [(Position.Wing, [F64.fin 20, F64.fin 10, F64.fin 40])]⟩

/-- The two-player registry of the Rust `test_normalize_metrics` test. -/
def demoReg2 : Registry := [("Player A", demoWingA), ("Player B", demoWingB)]

/-- A player holding a 5-element Wing vector. -/
def wingPlayer5 : Player :=
  ⟨"P5", [Position.Wing], [(Position.Wing, List.replicate 5 (F64.fin 1))]⟩

/-- A player holding a 10-element Wing vector (as a dual `L/R` row makes). -/
def wingPlayer10 : Player :=
  ⟨"P10", [Position.Wing, Position.Wing],
    [(Position.Wing, List.replicate 10 (F64.fin 1))]⟩

/-- A registry mixing a 5-element and a 10-element Wing vector, the
5-element one first. -/
def mixedReg : Registry := [("P5", wingPlayer5), ("P10", wingPlayer10)]

/-- A registry for the query examples, storing the name `Player One`. -/
def demoQueryReg : Registry :=
  [("Player One",
    ⟨"Player One", [Position.Center],
      [(Position.Center,
        [F64.fin 1, F64.fin 1, F64.fin 1, F64.fin 1, F64.fin 1])]⟩)]

/-! ## Lemmas about the association-list maps -/

theorem getM_nil (p : Position) : getM [] p = none := rfl

theorem getM_cons (pv : Position × List F64) (m : Metrics) (p : Position) :
    getM (pv :: m) p = if pv.1 = p then some pv.2 else getM m p := by
  by_cases h : pv.1 = p <;> simp [getM, List.find?, h]

theorem getM_insertM_self (m : Metrics) (k : Position) (v : List F64) :
    getM (insertM m k v) k = some v := by
  induction m with
  | nil => simp [insertM, getM_cons]
  | cons pv rest ih =>
      by_cases h : pv.1 = k
      · simp [insertM, h, getM_cons]
      · simp [insertM, h, getM_cons, ih]

theorem getM_insertM_ne (m : Metrics) (k k' : Position) (v : List F64)
    (h : k ≠ k') : getM (insertM m k v) k' = getM m k' := by
  induction m with
  | nil => simp [insertM, getM_cons, getM_nil, h]
  | cons pv rest ih =>
      by_cases hp : pv.1 = k
      · simp [insertM, hp, getM_cons, h, hp ▸ h]
      · simp [insertM, hp, getM_cons, ih]

theorem getM_extendM_self (m : Metrics) (k : Position) (v : List F64) :
    getM (extendM m k v) k = some ((getM m k).getD [] ++ v) := by
  induction m with
  | nil => simp [extendM, getM_cons, getM_nil]
  | cons pv rest ih =>
      by_cases h : pv.1 = k
      · simp [extendM, h, getM_cons]
      · simp [extendM, h, getM_cons, ih]

theorem getM_extendM_ne (m : Metrics) (k k' : Position) (v : List F64)
    (h : k ≠ k') : getM (extendM m k v) k' = getM m k' := by
  induction m with
  | nil => simp [extendM, getM_cons, getM_nil, h]
  | cons pv rest ih =>
      by_cases hp : pv.1 = k
      · simp [extendM, hp, getM_cons, h, hp ▸ h]
      · simp [extendM, hp, getM_cons, ih]

theorem getM_of_mem_nodup (m : Metrics) (pv : Position × List F64)
    (hmem : pv ∈ m) (hnd : (m.map Prod.fst).Nodup) : getM m pv.1 = some pv.2 := by
  induction m with
  | nil => cases hmem
  | cons hd rest ih =>
      rcases List.mem_cons.mp hmem with h | h
      · subst h; simp [getM_cons]
      · rw [List.map_cons] at hnd
        have hnd' := List.nodup_cons.mp hnd
        have hne : hd.1 ≠ pv.1 := by
          intro he
          exact hnd'.1 (by rw [he]; exact List.mem_map_of_mem Prod.fst h)
        simp [getM_cons, hne, ih h hnd'.2]

theorem mem_of_getM (m : Metrics) (p : Position) (v : List F64)
    (h : getM m p = some v) : (p, v) ∈ m := by
  induction m with
  | nil => simp [getM_nil] at h
  | cons pv rest ih =>
      obtain ⟨p1, v1⟩ := pv
      rw [getM_cons] at h
      by_cases hp : p1 = p
      · simp [hp] at h
        subst hp
        subst h
        exact List.mem_cons_self _ _
      · simp [hp] at h
        exact List.mem_cons_of_mem _ (ih h)

theorem getM_eq_none_iff (m : Metrics) (p : Position) :
    getM m p = none ↔ ∀ pv ∈ m, pv.1 ≠ p := by
  induction m with
  | nil => simp [getM_nil]
  | cons pv rest ih =>
      rw [getM_cons]
      by_cases hp : pv.1 = p <;> simp [hp, ih]

/-! ## Lemmas about the option-propagating combinators -/

theorem mapMO_eq_map {α : Type _} (f : α → Option α) (g : α → α) (l : List α)
    (h : ∀ a ∈ l, f a = some (g a)) : mapMO f l = some (l.map g) := by
  induction l with
  | nil => rfl
  | cons a l ih =>
      have ha := h a (List.mem_cons_self a l)
      have hl := ih (fun b hb => h b (List.mem_cons_of_mem _ hb))
      simp [mapMO, ha, hl]

theorem foldlMO_append {α β : Type _} (f : β → α → Option β) (l₁ l₂ : List α)
    (b : β) :
    foldlMO f b (l₁ ++ l₂) = (foldlMO f b l₁).bind (fun b2 => foldlMO f b2 l₂) := by
  induction l₁ generalizing b with
  | nil => simp [foldlMO]
  | cons a l ih =>
      simp only [List.cons_append, foldlMO]
      cases f b a <;> simp [ih]

/-! ## The two row loops (`process_file` vs `main`) -/

theorem foldl_mainStep_fst (lines : List String) (reg : Registry) (a b : ℕ) :
    (lines.foldl mainStep (reg, a, b)).1 = lines.foldl buildStep reg := by
  induction lines generalizing reg a b with
  | nil => rfl
  | cons line rest ih =>
      simp only [List.foldl_cons]
      cases h : clean_fields line <;> simp [mainStep, buildStep, h, ih]

theorem foldl_mainStep_count (lines : List String) (reg : Registry) (a b : ℕ) :
    (lines.foldl mainStep (reg, a, b)).2.1 + (lines.foldl mainStep (reg, a, b)).2.2
      = a + b + lines.length := by
  induction lines generalizing reg a b with
  | nil => rfl
  | cons line rest ih =>
      simp only [List.foldl_cons]
      cases h : clean_fields line <;>
        simp [mainStep, h, ih] <;> omega

/-! ## Lemmas about the position-token loop of `clean_fields` -/

theorem pt_nil (fields : List String) (name : String) (ps : List Position)
    (ms : Metrics) : processTokens fields name [] ps ms = some (ps, ms) := rfl

theorem pt_cons_C (fields : List String) (name : String) (rest : List String)
    (ps : List Position) (ms : Metrics) :
    processTokens fields name ("C" :: rest) ps ms
      = processTokens fields name rest (ps ++ [Position.Center])
          (insertM ms Position.Center (centerVec fields name)) := by
  simp [processTokens]

theorem pt_cons_L (fields : List String) (name : String) (rest : List String)
    (ps : List Position) (ms : Metrics) :
    processTokens fields name ("L" :: rest) ps ms
      = processTokens fields name rest (ps ++ [Position.Wing])
          (extendM ms Position.Wing (wingVec fields name)) := by
  simp [processTokens]

theorem pt_cons_R (fields : List String) (name : String) (rest : List String)
    (ps : List Position) (ms : Metrics) :
    processTokens fields name ("R" :: rest) ps ms
      = processTokens fields name rest (ps ++ [Position.Wing])
          (extendM ms Position.Wing (wingVec fields name)) := by
  simp [processTokens]

theorem pt_cons_D (fields : List String) (name : String) (rest : List String)
    (ps : List Position) (ms : Metrics) :
    processTokens fields name ("D" :: rest) ps ms
      = processTokens fields name rest (ps ++ [Position.Defense])
          (insertM ms Position.Defense (defenseVec fields name)) := by
  simp [processTokens]

theorem pt_cons_invalid (fields : List String) (name : String) (tok : String)
    (rest : List String) (ps : List Position) (ms : Metrics)
    (h1 : tok ≠ "C") (h2 : tok ≠ "L") (h3 : tok ≠ "R") (h4 : tok ≠ "D") :
    processTokens fields name (tok :: rest) ps ms = none := by
  simp [processTokens, h1, h2, h3, h4]

theorem pt_isSome (fields : List String) (name : String) :
    ∀ (toks : List String) (ps : List Position) (ms : Metrics),
      (processTokens fields name toks ps ms).isSome = toks.all isValidTok := by
  intro toks
  induction toks with
  | nil => intro ps ms; simp [pt_nil]
  | cons tok rest ih =>
      intro ps ms
      by_cases hC : tok = "C"
      · subst hC; rw [pt_cons_C]; simp [ih, isValidTok, isLR]
      · by_cases hL : tok = "L"
        · subst hL; rw [pt_cons_L]; simp [ih, isValidTok, isLR]
        · by_cases hR : tok = "R"
          · subst hR; rw [pt_cons_R]; simp [ih, isValidTok, isLR]
          · by_cases hD : tok = "D"
            · subst hD; rw [pt_cons_D]; simp [ih, isValidTok, isLR]
            · rw [pt_cons_invalid _ _ _ _ _ _ hC hL hR hD]
              simp [isValidTok, isLR, hC, hL, hR, hD]

theorem pt_wingLen (fields : List String) (name : String) :
    ∀ (toks : List String) (ps : List Position) (ms : Metrics)
      (r : List Position × Metrics),
      processTokens fields name toks ps ms = some r →
      ((getM r.2 Position.Wing).getD []).length
        = ((getM ms Position.Wing).getD []).length + 5 * toks.countP isLR := by
  intro toks
  induction toks with
  | nil =>
      intro ps ms r h
      rw [pt_nil, Option.some_inj] at h
      subst h
      simp
  | cons tok rest ih =>
      intro ps ms r h
      by_cases hC : tok = "C"
      · subst hC
        rw [pt_cons_C] at h
        rw [ih _ _ _ h, getM_insertM_ne _ _ _ _ (by decide)]
        simp [List.countP_cons, isLR]
      · by_cases hL : tok = "L"
        · subst hL
          rw [pt_cons_L] at h
          rw [ih _ _ _ h, getM_extendM_self]
          simp [List.countP_cons, isLR, wingVec]
          omega
        · by_cases hR : tok = "R"
          · subst hR
            rw [pt_cons_R] at h
            rw [ih _ _ _ h, getM_extendM_self]
            simp [List.countP_cons, isLR, wingVec]
            omega
          · by_cases hD : tok = "D"
            · subst hD
              rw [pt_cons_D] at h
              rw [ih _ _ _ h, getM_insertM_ne _ _ _ _ (by decide)]
              simp [List.countP_cons, isLR]
            · rw [pt_cons_invalid _ _ _ _ _ _ hC hL hR hD] at h
              cases h

theorem pt_wingIsSome (fields : List String) (name : String) :
    ∀ (toks : List String) (ps : List Position) (ms : Metrics)
      (r : List Position × Metrics),
      processTokens fields name toks ps ms = some r →
      (getM r.2 Position.Wing).isSome
        = ((getM ms Position.Wing).isSome || toks.any isLR) := by
  intro toks
  induction toks with
  | nil =>
      intro ps ms r h
      rw [pt_nil, Option.some_inj] at h
      subst h
      simp
  | cons tok rest ih =>
      intro ps ms r h
      by_cases hC : tok = "C"
      · subst hC
        rw [pt_cons_C] at h
        rw [ih _ _ _ h, getM_insertM_ne _ _ _ _ (by decide)]
        simp [isLR]
      · by_cases hL : tok = "L"
        · subst hL
          rw [pt_cons_L] at h
          rw [ih _ _ _ h, getM_extendM_self]
          simp [isLR]
        · by_cases hR : tok = "R"
          · subst hR
            rw [pt_cons_R] at h
            rw [ih _ _ _ h, getM_extendM_self]
            simp [isLR]
          · by_cases hD : tok = "D"
            · subst hD
              rw [pt_cons_D] at h
              rw [ih _ _ _ h, getM_insertM_ne _ _ _ _ (by decide)]
              simp [isLR]
            · rw [pt_cons_invalid _ _ _ _ _ _ hC hL hR hD] at h
              cases h

theorem pt_center (fields : List String) (name : String) :
    ∀ (toks : List String) (ps : List Position) (ms : Metrics)
      (r : List Position × Metrics),
      processTokens fields name toks ps ms = some r →
      getM r.2 Position.Center
        = (if "C" ∈ toks then some (centerVec fields name)
           else getM ms Position.Center) := by
  intro toks
  induction toks with
  | nil =>
      intro ps ms r h
      rw [pt_nil, Option.some_inj] at h
      subst h
      simp
  | cons tok rest ih =>
      intro ps ms r h
      by_cases hC : tok = "C"
      · subst hC
        rw [pt_cons_C] at h
        rw [ih _ _ _ h]
        by_cases hm : "C" ∈ rest <;> simp [hm, getM_insertM_self]
      · by_cases hL : tok = "L"
        · subst hL
          rw [pt_cons_L] at h
          rw [ih _ _ _ h, getM_extendM_ne _ _ _ _ (by decide)]
          simp [List.mem_cons]
        · by_cases hR : tok = "R"
          · subst hR
            rw [pt_cons_R] at h
            rw [ih _ _ _ h, getM_extendM_ne _ _ _ _ (by decide)]
            simp [List.mem_cons]
          · by_cases hD : tok = "D"
            · subst hD
              rw [pt_cons_D] at h
              rw [ih _ _ _ h, getM_insertM_ne _ _ _ _ (by decide)]
              simp [List.mem_cons]
            · rw [pt_cons_invalid _ _ _ _ _ _ hC hL hR hD] at h
              cases h

theorem pt_defense (fields : List String) (name : String) :
    ∀ (toks : List String) (ps : List Position) (ms : Metrics)
      (r : List Position × Metrics),
      processTokens fields name toks ps ms = some r →
      getM r.2 Position.Defense
        = (if "D" ∈ toks then some (defenseVec fields name)
           else getM ms Position.Defense) := by
  intro toks
  induction toks with
  | nil =>
      intro ps ms r h
      rw [pt_nil, Option.some_inj] at h
      subst h
      simp
  | cons tok rest ih =>
      intro ps ms r h
      by_cases hC : tok = "C"
      · subst hC
        rw [pt_cons_C] at h
        rw [ih _ _ _ h, getM_insertM_ne _ _ _ _ (by decide)]
        simp [List.mem_cons]
      · by_cases hL : tok = "L"
        · subst hL
          rw [pt_cons_L] at h
          rw [ih _ _ _ h, getM_extendM_ne _ _ _ _ (by decide)]
          simp [List.mem_cons]
        · by_cases hR : tok = "R"
          · subst hR
            rw [pt_cons_R] at h
            rw [ih _ _ _ h, getM_extendM_ne _ _ _ _ (by decide)]
            simp [List.mem_cons]
          · by_cases hD : tok = "D"
            · subst hD
              rw [pt_cons_D] at h
              rw [ih _ _ _ h]
              by_cases hm : "D" ∈ rest <;> simp [hm, getM_insertM_self]
            · rw [pt_cons_invalid _ _ _ _ _ _ hC hL hR hD] at h
              cases h

theorem pt_posLen (fields : List String) (name : String) :
    ∀ (toks : List String) (ps : List Position) (ms : Metrics)
      (r : List Position × Metrics),
      processTokens fields name toks ps ms = some r →
      r.1.length = ps.length + toks.length := by
  intro toks
  induction toks with
  | nil =>
      intro ps ms r h
      rw [pt_nil, Option.some_inj] at h
      subst h
      simp
  | cons tok rest ih =>
      intro ps ms r h
      by_cases hC : tok = "C"
      · subst hC
        rw [pt_cons_C] at h
        have := ih _ _ _ h
        simp at this
        simp [this]
        omega
      · by_cases hL : tok = "L"
        · subst hL
          rw [pt_cons_L] at h
          have := ih _ _ _ h
          simp at this
          simp [this]
          omega
        · by_cases hR : tok = "R"
          · subst hR
            rw [pt_cons_R] at h
            have := ih _ _ _ h
            simp at this
            simp [this]
            omega
          · by_cases hD : tok = "D"
            · subst hD
              rw [pt_cons_D] at h
              have := ih _ _ _ h
              simp at this
              simp [this]
              omega
            · rw [pt_cons_invalid _ _ _ _ _ _ hC hL hR hD] at h
              cases h

theorem pt_mem (fields : List String) (name : String) :
    ∀ (toks : List String) (ps : List Position) (ms : Metrics)
      (r : List Position × Metrics),
      processTokens fields name toks ps ms = some r →
      ∀ p ∈ r.1,
        p ∈ ps ∨ (p = Position.Center ∧ "C" ∈ toks)
          ∨ (p = Position.Wing ∧ toks.any isLR = true)
          ∨ (p = Position.Defense ∧ "D" ∈ toks) := by
  intro toks
  induction toks with
  | nil =>
      intro ps ms r h p hp
      rw [pt_nil, Option.some_inj] at h
      subst h
      exact Or.inl hp
  | cons tok rest ih =>
      intro ps ms r h p hp
      by_cases hC : tok = "C"
      · subst hC
        rw [pt_cons_C] at h
        rcases ih _ _ _ h p hp with h2 | h2 | h2 | h2
        · rcases List.mem_append.mp h2 with h3 | h3
          · exact Or.inl h3
          · simp at h3
            exact Or.inr (Or.inl ⟨h3, by simp⟩)
        · exact Or.inr (Or.inl ⟨h2.1, List.mem_cons_of_mem _ h2.2⟩)
        · exact Or.inr (Or.inr (Or.inl ⟨h2.1, by simp [h2.2]⟩))
        · exact Or.inr (Or.inr (Or.inr ⟨h2.1, List.mem_cons_of_mem _ h2.2⟩))
      · by_cases hL : tok = "L"
        · subst hL
          rw [pt_cons_L] at h
          rcases ih _ _ _ h p hp with h2 | h2 | h2 | h2
          · rcases List.mem_append.mp h2 with h3 | h3
            · exact Or.inl h3
            · simp at h3
              exact Or.inr (Or.inr (Or.inl ⟨h3, by simp [isLR]⟩))
          · exact Or.inr (Or.inl ⟨h2.1, List.mem_cons_of_mem _ h2.2⟩)
          · exact Or.inr (Or.inr (Or.inl ⟨h2.1, by simp [h2.2]⟩))
          · exact Or.inr (Or.inr (Or.inr ⟨h2.1, List.mem_cons_of_mem _ h2.2⟩))
        · by_cases hR : tok = "R"
          · subst hR
            rw [pt_cons_R] at h
            rcases ih _ _ _ h p hp with h2 | h2 | h2 | h2
            · rcases List.mem_append.mp h2 with h3 | h3
              · exact Or.inl h3
              · simp at h3
                exact Or.inr (Or.inr (Or.inl ⟨h3, by simp [isLR]⟩))
            · exact Or.inr (Or.inl ⟨h2.1, List.mem_cons_of_mem _ h2.2⟩)
            · exact Or.inr (Or.inr (Or.inl ⟨h2.1, by simp [h2.2]⟩))
            · exact Or.inr (Or.inr (Or.inr ⟨h2.1, List.mem_cons_of_mem _ h2.2⟩))
          · by_cases hD : tok = "D"
            · subst hD
              rw [pt_cons_D] at h
              rcases ih _ _ _ h p hp with h2 | h2 | h2 | h2
              · rcases List.mem_append.mp h2 with h3 | h3
                · exact Or.inl h3
                · simp at h3
                  exact Or.inr (Or.inr (Or.inr ⟨h3, by simp⟩))
              · exact Or.inr (Or.inl ⟨h2.1, List.mem_cons_of_mem _ h2.2⟩)
              · exact Or.inr (Or.inr (Or.inl ⟨h2.1, by simp [h2.2]⟩))
              · exact Or.inr (Or.inr (Or.inr ⟨h2.1, List.mem_cons_of_mem _ h2.2⟩))
            · rw [pt_cons_invalid _ _ _ _ _ _ hC hL hR hD] at h
              cases h

/-- Unpack a successful `clean_fields` run into its structural facts. -/
theorem clean_fields_some_elim (line : String)
    (r : String × List Position × Metrics) (h : clean_fields line = some r) :
    34 ≤ (fieldsOf line).length ∧ r.1 = (fieldsOf line).getD 1 "" ∧
      processTokens (fieldsOf line) r.1 (posTokens (posStrOf line)) [] []
        = some (r.2.1, r.2.2) := by
  simp only [clean_fields] at h
  by_cases h1 : (fieldsOf line).length < 34
  · rw [if_pos h1] at h
    cases h
  · rw [if_neg h1] at h
    by_cases h2 : (fieldsOf line).getD 1 "" = "" ∨ (fieldsOf line).getD 2 "" = ""
    · rw [if_pos h2] at h
      cases h
    · rw [if_neg h2, Option.map_eq_some'] at h
      obtain ⟨pm, hpm, hr⟩ := h
      subst hr
      exact ⟨by omega, rfl, by simpa [posStrOf] using hpm⟩

/-! ## Claim theorems -/

/-- C1: for every accepted row, `clean_fields` treats the slash-separated
position tokens asymmetrically: a `C` or `D` token inserts (overwrites) a
fresh 5-element metric vector for Center resp. Defense, while every `L` or
`R` token appends 5 more elements to any existing Wing vector of the same
row; a row whose position field is exactly `L` (or `R`) yields
`metrics[Wing]` of length 5, and a row declaring `L/R` yields length 10. -/
theorem c1_wing_extend_asymmetry (line : String)
    (r : String × List Position × Metrics) (h : clean_fields line = some r) :
    ((posStrOf line = "L" ∨ posStrOf line = "R") →
      ∃ v, getM r.2.2 Position.Wing = some v ∧ v.length = 5) ∧
    (posStrOf line = "L/R" →
      ∃ v, getM r.2.2 Position.Wing = some v ∧ v.length = 10) ∧
    ("C" ∈ posTokens (posStrOf line) →
      getM r.2.2 Position.Center = some (centerVec (fieldsOf line) r.1) ∧
        (centerVec (fieldsOf line) r.1).length = 5) ∧
    ("D" ∈ posTokens (posStrOf line) →
      getM r.2.2 Position.Defense = some (defenseVec (fieldsOf line) r.1) ∧
        (defenseVec (fieldsOf line) r.1).length = 5) := by
  obtain ⟨hlen, hname, hpt⟩ := clean_fields_some_elim line r h
  refine ⟨?_, ?_, ?_, ?_⟩
  · rintro (hp | hp) <;> rw [hp] at hpt
    · have hs := pt_wingIsSome _ _ _ _ _ _ hpt
      have hl := pt_wingLen _ _ _ _ _ _ hpt
      simp only [posTokens] at hs hl
      norm_num [getM_nil, isLR] at hs hl
      obtain ⟨v, hv⟩ := Option.isSome_iff_exists.mp hs
      exact ⟨v, hv, by simpa [hv] using hl⟩
    · have hs := pt_wingIsSome _ _ _ _ _ _ hpt
      have hl := pt_wingLen _ _ _ _ _ _ hpt
      simp only [posTokens] at hs hl
      norm_num [getM_nil, isLR] at hs hl
      obtain ⟨v, hv⟩ := Option.isSome_iff_exists.mp hs
      exact ⟨v, hv, by simpa [hv] using hl⟩
  · intro hp
    rw [hp] at hpt
    have hs := pt_wingIsSome _ _ _ _ _ _ hpt
    have hl := pt_wingLen _ _ _ _ _ _ hpt
    simp only [posTokens] at hs hl
    norm_num [getM_nil, isLR] at hs hl
    obtain ⟨v, hv⟩ := Option.isSome_iff_exists.mp hs
    exact ⟨v, hv, by simpa [hv] using hl⟩
  · intro hp
    have := pt_center _ _ _ _ _ _ hpt
    rw [if_pos hp] at this
    exact ⟨this, by simp [centerVec]⟩
  · intro hp
    have := pt_defense _ _ _ _ _ _ hpt
    rw [if_pos hp] at this
    exact ⟨this, by simp [defenseVec]⟩

theorem c1_witness :
    ((fieldsOf lineL).length = 35 ∧ posStrOf lineL = "L" ∧
      posStrOf lineLR = "L/R") ∧
    (∃ v, getM [(Position.Wing,
        [F64.fin 3, F64.fin 2, F64.fin 2, F64.fin 7, F64.fin 4])]
        Position.Wing = some v ∧ v.length = 5) ∧
    (∃ v, getM [(Position.Wing,
        [F64.fin 3, F64.fin 2, F64.fin 2, F64.fin 7, F64.fin 4,
         F64.fin 3, F64.fin 2, F64.fin 2, F64.fin 7, F64.fin 4])]
        Position.Wing = some v ∧ v.length = 10) :=
  ⟨by decide,
   (c1_wing_extend_asymmetry lineL
      ("Player One", [Position.Wing],
        [(Position.Wing,
          [F64.fin 3, F64.fin 2, F64.fin 2, F64.fin 7, F64.fin 4])])
      (by decide)).1 (Or.inl (by decide)),
   (c1_wing_extend_asymmetry lineLR
      ("Player One", [Position.Wing, Position.Wing],
        [(Position.Wing,
          [F64.fin 3, F64.fin 2, F64.fin 2, F64.fin 7, F64.fin 4,
           F64.fin 3, F64.fin 2, F64.fin 2, F64.fin 7, F64.fin 4])])
      (by decide)).2.1 (by decide)⟩

/-- C9 counterexample: the accepted row `lineLR` (position field `L/R`)
yields a positions list `[Wing, Wing]`, which is not a set (Wing occurs
twice), and its Wing metric entry has 10 values, not 5. -/
theorem c9_counterexample :
    (clean_fields lineLR).map (fun r => r.2.1)
        = some [Position.Wing, Position.Wing] ∧
    (clean_fields lineLR).map (fun r => (getM r.2.2 Position.Wing).map List.length)
        = some (some 10) ∧
    ¬ ([Position.Wing, Position.Wing] : List Position).Nodup := by
  refine ⟨by decide, by decide, by decide⟩

/-- C9 amended: for every row accepted by `clean_fields`, the returned
positions list has one element per position token (so it may repeat Wing,
e.g. `[Wing, Wing]` for an `L/R` row), and every Position in it has a
corresponding entry in `metrics`; Center and Defense entries have exactly
5 values, while the Wing entry has `5 × (number of L/R tokens)` values. -/
theorem c9_positions_have_metrics (line : String)
    (r : String × List Position × Metrics) (h : clean_fields line = some r) :
    r.2.1.length = (posTokens (posStrOf line)).length ∧
    ∀ p ∈ r.2.1, ∃ v, getM r.2.2 p = some v ∧
      (p = Position.Center → v.length = 5) ∧
      (p = Position.Defense → v.length = 5) ∧
      (p = Position.Wing →
        v.length = 5 * (posTokens (posStrOf line)).countP isLR) := by
  obtain ⟨hlen, hname, hpt⟩ := clean_fields_some_elim line r h
  constructor
  · have := pt_posLen _ _ _ _ _ _ hpt
    simpa using this
  · intro p hp
    rcases pt_mem _ _ _ _ _ _ hpt p hp with h2 | h2 | h2 | h2
    · cases h2
    · obtain ⟨rfl, hmem⟩ := h2
      have hc := pt_center _ _ _ _ _ _ hpt
      rw [if_pos hmem] at hc
      refine ⟨_, hc, fun _ => by simp [centerVec], fun hx => ?_, fun hx => ?_⟩
      · exact absurd hx (by decide)
      · exact absurd hx (by decide)
    · obtain ⟨rfl, hany⟩ := h2
      have hs := pt_wingIsSome _ _ _ _ _ _ hpt
      have hl := pt_wingLen _ _ _ _ _ _ hpt
      rw [getM_nil] at hs hl
      simp [hany] at hs
      obtain ⟨v, hv⟩ := Option.isSome_iff_exists.mp hs
      refine ⟨v, hv, fun hx => ?_, fun hx => ?_, fun _ => ?_⟩
      · exact absurd hx (by decide)
      · exact absurd hx (by decide)
      · rw [hv] at hl
        simpa using hl
    · obtain ⟨rfl, hmem⟩ := h2
      have hd := pt_defense _ _ _ _ _ _ hpt
      rw [if_pos hmem] at hd
      refine ⟨_, hd, fun hx => ?_, fun _ => by simp [defenseVec], fun hx => ?_⟩
      · exact absurd hx (by decide)
      · exact absurd hx (by decide)

theorem c9_witness :
    (clean_fields lineL).isSome = true ∧
    (∀ r, clean_fields lineL = some r →
      r.2.1.length = (posTokens (posStrOf lineL)).length) := by
  refine ⟨by decide, fun r h => (c9_positions_have_metrics lineL r h).1⟩

/-- C4 counterexample: the row loop of `main` does not discard the first
line of the file.  On the one-line input `[lineC]`, `main`'s loop parses
the line and inserts the player (processed count 1, non-empty registry),
while `process_file` on the same input discards it. -/
theorem c4_counterexample :
    process_file [lineC] = [] ∧ (mainLoop [lineC]).2.1 = 1 ∧
      (mainLoop [lineC]).1 ≠ [] := by
  refine ⟨by decide, by decide, by decide⟩

/-- C4 amended: `process_file` skips exactly one header line — the first
line is discarded whatever its content, and the remaining lines are
processed exactly as a run of the shared row loop; the row loop of `main`,
by contrast, feeds every line, including the first, to `clean_fields`
(both counters together count every line). -/
theorem c4_header_skip (h1 h2 : String) (rest : List String) :
    process_file (h1 :: rest) = process_file (h2 :: rest) ∧
    process_file (h1 :: rest) = (mainLoop rest).1 ∧
    (mainLoop (h1 :: rest)).2.1 + (mainLoop (h1 :: rest)).2.2
      = rest.length + 1 := by
  refine ⟨rfl, ?_, ?_⟩
  · rw [show process_file (h1 :: rest) = rest.foldl buildStep [] from rfl]
    rw [mainLoop, foldl_mainStep_fst]
  · rw [mainLoop, foldl_mainStep_count]
    simp [Nat.add_comm]

/-- C5: every line whose comma-split field count is below 34 is rejected by
`clean_fields`, and such a line never contributes an entry to the registry
built by the row loop of `main`. -/
theorem c5_short_rows_rejected (line : String)
    (h : (fieldsOf line).length < 34) :
    clean_fields line = none ∧
    ∀ (pre post : List String),
      (mainLoop (pre ++ line :: post)).1 = (mainLoop (pre ++ post)).1 := by
  have hnone : clean_fields line = none := by
    simp [clean_fields, h]
  refine ⟨hnone, fun pre post => ?_⟩
  rw [mainLoop, mainLoop, List.foldl_append, List.foldl_append]
  obtain ⟨r0, a0, b0⟩ := pre.foldl mainStep ([], 0, 0)
  simp only [List.foldl_cons]
  rw [show mainStep (r0, a0, b0) line = (r0, a0, b0 + 1) from by
    simp [mainStep, hnone]]
  rw [foldl_mainStep_fst, foldl_mainStep_fst]

theorem c5_witness :
    (fieldsOf "a,b,c").length < 34 ∧ clean_fields "a,b,c" = none :=
  ⟨by decide, (c5_short_rows_rejected "a,b,c" (by decide)).1⟩

/-- C7: a metric field that fails numeric parsing is silently replaced by
the default value `0.0` (`default_metric`), and acceptance of a row by
`clean_fields` depends only on its structural fields (field count, name,
position tokens) — metric parse failures never cause rejection. -/
theorem c7_parse_failure_defaults (line : String) (s mn pn : String)
    (hs : parseF64 s = none) :
    parseOrDefault s mn pn = default_metric mn pn ∧
    default_metric mn pn = F64.fin 0 ∧
    (clean_fields line).isSome = rowOK line := by
  refine ⟨by simp [parseOrDefault, hs], rfl, ?_⟩
  simp only [clean_fields, rowOK]
  by_cases h1 : (fieldsOf line).length < 34
  · rw [if_pos h1]
    have h1' : ¬ 34 ≤ (fieldsOf line).length := by omega
    simp [h1']
  · rw [if_neg h1]
    have h1' : 34 ≤ (fieldsOf line).length := by omega
    by_cases h2 : (fieldsOf line).getD 1 "" = "" ∨ (fieldsOf line).getD 2 "" = ""
    · rw [if_pos h2]
      rcases h2 with h2 | h2 <;> rw [h2] <;> simp
    · rw [if_neg h2]
      rw [not_or] at h2
      have h2' := h2
      simp only [List.getD_eq_getElem?_getD] at h2'
      rw [← pt_isSome (fieldsOf line) ((fieldsOf line).getD 1 "")
        (posTokens ((fieldsOf line).getD 2 "")) [] []]
      cases hopt : processTokens (fieldsOf line) ((fieldsOf line).getD 1 "")
          (posTokens ((fieldsOf line).getD 2 "")) [] [] <;>
        simp [h1', h2.1, h2.2, h2'.1, h2'.2]

theorem c7_witness :
    parseF64 "abc" = none ∧
    (parseOrDefault "abc" "m" "p" = default_metric "m" "p" ∧
      default_metric "m" "p" = F64.fin 0 ∧
      (clean_fields lineL).isSome = rowOK lineL) :=
  ⟨by decide, c7_parse_failure_defaults lineL "abc" "m" "p" (by decide)⟩

/-! ## Scoring lemmas -/

theorem weightsFor_len (p : Position) : (weightsFor p).1.length = 5 := by
  cases p <;> rfl

theorem squash_nonneg (x : ℚ) : 0 ≤ squash x :=
  le_min (le_max_right _ _) (by norm_num)

theorem squash_le_100 (x : ℚ) : squash x ≤ 100 := min_le_right _ _

theorem squash_mono {x y : ℚ} (h : x ≤ y) : squash x ≤ squash y := by
  unfold squash
  have hxy : (x : ℝ) ≤ (y : ℝ) := by exact_mod_cast h
  have h2 : (0 : ℝ) < 1 + Real.exp (-(y : ℝ)) := by positivity
  have hexp : Real.exp (-(y : ℝ)) ≤ Real.exp (-(x : ℝ)) :=
    Real.exp_le_exp.mpr (by linarith)
  have hdiv : 100 / (1 + Real.exp (-(x : ℝ))) ≤ 100 / (1 + Real.exp (-(y : ℝ))) :=
    div_le_div_of_nonneg_left (by norm_num) h2 (by linarith)
  exact min_le_min (max_le_max hdiv le_rfl) le_rfl

theorem calculate_score_bounds (p : Position) (ms : List F64) :
    0 ≤ calculate_score p ms ∧ calculate_score p ms ≤ 100 := by
  simp only [calculate_score]
  split
  · norm_num
  · exact ⟨squash_nonneg _, squash_le_100 _⟩

/-- On an all-finite 5-element vector the guard of `calculate_score` is
inactive and the logistic formula is applied. -/
theorem calculate_score_fin5 (p : Position) (a b c d e : ℚ) :
    calculate_score p [F64.fin a, F64.fin b, F64.fin c, F64.fin d, F64.fin e]
      = squash ((weightsFor p).2 *
          weightedSum [F64.fin a, F64.fin b, F64.fin c, F64.fin d, F64.fin e]
            (weightsFor p).1) := by
  have hg : ¬(([F64.fin a, F64.fin b, F64.fin c, F64.fin d, F64.fin e] :
        List F64).length ≠ (weightsFor p).1.length
      ∨ ([F64.fin a, F64.fin b, F64.fin c, F64.fin d, F64.fin e] :
        List F64).any (fun m => !m.is_finite) = true) := by
    cases p <;> simp [weightsFor, F64.is_finite]
  simp only [calculate_score]
  rw [if_neg hg]

/-- C6: `calculate_score` returns `0.0` whenever the metric vector length
differs from the (always 5-element) weight vector or some metric is
non-finite; under the complementary precondition the guard is unreachable
and the score is the un-clamped logistic formula. -/
theorem c6_score_error_branch (position : Position) (metrics : List F64) :
    ((metrics.length ≠ 5 ∨ ∃ m ∈ metrics, m.is_finite = false) →
      calculate_score position metrics = 0) ∧
    (metrics.length = 5 → (∀ m ∈ metrics, m.is_finite = true) →
      calculate_score position metrics
        = 100 / (1 + Real.exp
            (-(((weightsFor position).2 *
                weightedSum metrics (weightsFor position).1 : ℚ) : ℝ)))) := by
  constructor
  · intro h
    have hcond : metrics.length ≠ (weightsFor position).1.length
        ∨ metrics.any (fun m => !m.is_finite) = true := by
      rcases h with h | ⟨m, hm, hfin⟩
      · exact Or.inl (by rw [weightsFor_len]; exact h)
      · exact Or.inr (List.any_eq_true.mpr ⟨m, hm, by simp [hfin]⟩)
    simp only [calculate_score]
    rw [if_pos hcond]
  · intro hlen hfin
    have hcond : ¬(metrics.length ≠ (weightsFor position).1.length
        ∨ metrics.any (fun m => !m.is_finite) = true) := by
      rw [not_or]
      constructor
      · rw [weightsFor_len, hlen]
        exact fun hx => hx rfl
      · rw [Bool.not_eq_true, List.any_eq_false]
        intro m hm
        simp [hfin m hm]
    simp only [calculate_score]
    rw [if_neg hcond]
    unfold squash
    set v := 100 / (1 + Real.exp
      (-(((weightsFor position).2 *
          weightedSum metrics (weightsFor position).1 : ℚ) : ℝ))) with hv
    have hpos : (0 : ℝ) ≤ v := by rw [hv]; positivity
    have hle : v ≤ 100 := by
      rw [hv]
      apply div_le_self (by norm_num)
      have := Real.exp_pos
        (-(((weightsFor position).2 *
            weightedSum metrics (weightsFor position).1 : ℚ) : ℝ))
      linarith
    rw [max_eq_left hpos, min_eq_left hle]

theorem c6_witness :
    calculate_score Position.Center [F64.fin 1] = 0 ∧
    calculate_score Position.Center
      [F64.fin 1, F64.nan, F64.fin 1, F64.fin 1, F64.fin 1] = 0 ∧
    calculate_score Position.Wing
        [F64.fin 1, F64.fin 1, F64.fin 1, F64.fin 1, F64.fin 1]
      = 100 / (1 + Real.exp
          (-(((weightsFor Position.Wing).2 *
              weightedSum [F64.fin 1, F64.fin 1, F64.fin 1, F64.fin 1, F64.fin 1]
                (weightsFor Position.Wing).1 : ℚ) : ℝ))) :=
  ⟨(c6_score_error_branch Position.Center [F64.fin 1]).1 (Or.inl (by decide)),
   (c6_score_error_branch Position.Center
      [F64.fin 1, F64.nan, F64.fin 1, F64.fin 1, F64.fin 1]).1
     (Or.inr ⟨F64.nan, by decide, rfl⟩),
   (c6_score_error_branch Position.Wing
      [F64.fin 1, F64.fin 1, F64.fin 1, F64.fin 1, F64.fin 1]).2
     (by decide) (by decide)⟩

/-- C3: for every Position and every all-finite 5-element metric vector the
score lies in `[0, 100]`, and the score is monotone in each metric
coordinate: replacing the value at any index by a larger one does not
decrease the score (all weights are positive). -/
theorem c3_score_bounds_monotone (position : Position) (qs : List ℚ)
    (hlen : qs.length = 5) (i : ℕ) (q q' : ℚ) (hq : q ≤ q') :
    (0 ≤ calculate_score position (qs.map F64.fin) ∧
      calculate_score position (qs.map F64.fin) ≤ 100) ∧
    calculate_score position ((qs.map F64.fin).set i (F64.fin q))
      ≤ calculate_score position ((qs.map F64.fin).set i (F64.fin q')) := by
  refine ⟨calculate_score_bounds _ _, ?_⟩
  rcases qs with _ | ⟨a, qs⟩
  · simp at hlen
  rcases qs with _ | ⟨b, qs⟩
  · simp at hlen
  rcases qs with _ | ⟨c, qs⟩
  · simp at hlen
  rcases qs with _ | ⟨d, qs⟩
  · simp at hlen
  rcases qs with _ | ⟨e, qs⟩
  · simp at hlen
  have hq0 : qs = [] := by simpa using hlen
  subst hq0
  simp only [List.map_cons, List.map_nil]
  rcases i with _ | _ | _ | _ | _ | i <;>
    simp only [List.set] <;>
    [skip; skip; skip; skip; skip;
      exact le_rfl] <;>
    rw [calculate_score_fin5, calculate_score_fin5] <;>
    apply squash_mono <;>
    cases position <;>
    simp [weightedSum, weightsFor, F64.toRat] <;>
    nlinarith [hq]

theorem c3_witness :
    (([(1 : ℚ), 2, 3, 4, 5] : List ℚ).length = 5 ∧ (1 : ℚ) ≤ 2) ∧
    ((0 ≤ calculate_score Position.Center (([(1 : ℚ), 2, 3, 4, 5]).map F64.fin) ∧
      calculate_score Position.Center (([(1 : ℚ), 2, 3, 4, 5]).map F64.fin) ≤ 100) ∧
      calculate_score Position.Center
          ((([(1 : ℚ), 2, 3, 4, 5]).map F64.fin).set 0 (F64.fin 1))
        ≤ calculate_score Position.Center
            ((([(1 : ℚ), 2, 3, 4, 5]).map F64.fin).set 0 (F64.fin 2))) :=
  ⟨⟨by decide, by decide⟩,
   c3_score_bounds_monotone Position.Center [1, 2, 3, 4, 5] (by decide) 0 1 2
     (by decide)⟩

/-! ## Query-surface lemmas -/

/-- The running total the query loop accumulates equals the sum of the
scores of the `(position, score)` pairs it prints. -/
theorem totalScore_eq_sum (pl : Player) :
    totalScore pl = ((scorePairs pl).map Prod.snd).sum := by
  suffices h : ∀ (ps : List Position) (acc : ℝ),
      ps.foldl
        (fun acc pos =>
          match getM pl.metrics pos with
          | some ms => acc + calculate_score pos ms
          | none => acc)
        acc
        = acc + ((ps.filterMap fun pos =>
            (getM pl.metrics pos).map
              (fun ms => (pos, calculate_score pos ms))).map Prod.snd).sum by
    simpa [totalScore, scorePairs] using h pl.positions 0
  intro ps
  induction ps with
  | nil => intro acc; simp
  | cons p ps ih =>
      intro acc
      cases hg : getM pl.metrics p <;>
        simp [List.foldl_cons, hg, ih] <;> ring

/-- C8: the point query matches a stored player by case-insensitive exact
comparison of the trimmed input with the stored name; on a hit it reports
that player's `(position, score)` pairs together with an aggregate equal to
their sum, and when no stored name matches it produces the distinct
not-found response. -/
theorem c8_query_lookup (players : Registry) (input : String) :
    (runQuery players input = QueryResult.notFound ↔
      ∀ np ∈ players, lowerStr np.1 ≠ lowerStr (⟨trimL input.data⟩ : String)) ∧
    (∀ np, queryPlayer players input = some np →
      np ∈ players ∧
      lowerStr np.1 = lowerStr (⟨trimL input.data⟩ : String) ∧
      runQuery players input
        = QueryResult.found np.1 (scorePairs np.2)
            (((scorePairs np.2).map Prod.snd).sum)) := by
  constructor
  · unfold runQuery
    cases hq : queryPlayer players input with
    | some np =>
        simp only []
        constructor
        · intro hx
          cases hx
        · intro hall
          have hmem := List.mem_of_find?_eq_some hq
          have hpred := List.find?_some hq
          simp only [decide_eq_true_eq] at hpred
          exact absurd hpred (hall np hmem)
    | none =>
        simp only []
        constructor
        · intro _ np hmem
          have := List.find?_eq_none.mp hq np hmem
          simpa using this
        · intro _
          trivial
  · intro np hnp
    refine ⟨List.mem_of_find?_eq_some hnp, ?_, ?_⟩
    · have := List.find?_some hnp
      simpa using this
    · unfold runQuery
      rw [hnp]
      simp [totalScore_eq_sum]

theorem c8_witness :
    queryPlayer demoQueryReg "  player ONE "
        = some ("Player One",
            ⟨"Player One", [Position.Center],
              [(Position.Center,
                [F64.fin 1, F64.fin 1, F64.fin 1, F64.fin 1, F64.fin 1])]⟩) ∧
    (("Player One",
        (⟨"Player One", [Position.Center],
          [(Position.Center,
            [F64.fin 1, F64.fin 1, F64.fin 1, F64.fin 1, F64.fin 1])]⟩ : Player))
        ∈ demoQueryReg ∧
      lowerStr "Player One" = lowerStr (⟨trimL "  player ONE ".data⟩ : String) ∧
      runQuery demoQueryReg "  player ONE "
        = QueryResult.found "Player One"
            (scorePairs
              ⟨"Player One", [Position.Center],
                [(Position.Center,
                  [F64.fin 1, F64.fin 1, F64.fin 1, F64.fin 1, F64.fin 1])]⟩)
            (((scorePairs
                ⟨"Player One", [Position.Center],
                  [(Position.Center,
                    [F64.fin 1, F64.fin 1, F64.fin 1, F64.fin 1, F64.fin 1])]⟩).map
                Prod.snd).sum)) :=
  ⟨by decide,
   (c8_query_lookup demoQueryReg "  player ONE ").2
     ("Player One",
       ⟨"Player One", [Position.Center],
         [(Position.Center,
           [F64.fin 1, F64.fin 1, F64.fin 1, F64.fin 1, F64.fin 1])]⟩)
     (by decide)⟩

/-! ## Normalization: closed forms of the two inner loops -/

theorem updateMax_eq (ms : List F64) :
    ∀ (maxv : List F64), ms.length ≤ maxv.length →
      updateMax maxv ms
        = some (List.zipWith maxComb maxv ms ++ maxv.drop ms.length) := by
  induction ms with
  | nil => intro maxv h; simp [updateMax]
  | cons x xs ih =>
      intro maxv h
      cases maxv with
      | nil => simp at h
      | cons m mtl =>
          simp only [updateMax]
          rw [ih mtl (by simpa using h)]
          simp [maxComb]

theorem scaleVec_eq (ms : List F64) :
    ∀ (maxv : List F64), ms.length ≤ maxv.length →
      scaleVec maxv ms = some (List.zipWith scaleComb maxv ms) := by
  induction ms with
  | nil => intro maxv h; cases maxv <;> simp [scaleVec]
  | cons x xs ih =>
      intro maxv h
      cases maxv with
      | nil => simp at h
      | cons m mtl =>
          simp only [scaleVec]
          rw [ih mtl (by simpa using h)]
          simp [scaleComb]

theorem maxComb_fin (M : ℚ) (x : F64) :
    maxComb (F64.fin M) x
      = F64.fin (match x with | F64.fin q => max M q | _ => M) := by
  cases x with
  | fin q =>
      simp only [maxComb, F64.is_finite, F64.gt, F64.lt, Bool.true_and]
      by_cases h : M < q
      · simp [h, max_eq_right h.le]
      · simp [h, max_eq_left (not_lt.mp h)]
  | inf => rfl
  | neginf => rfl
  | nan => rfl

theorem zipWith_maxComb_range (v : List F64) :
    ∀ (g : ℕ → ℚ),
      List.zipWith maxComb ((List.range v.length).map (fun i => F64.fin (g i))) v
        = (List.range v.length).map (fun i => F64.fin (bumpQ g v i)) := by
  induction v with
  | nil => intro g; simp
  | cons x xs ih =>
      intro g
      rw [List.length_cons, List.range_succ_eq_map]
      simp only [List.map_cons, List.map_map, List.zipWith_cons_cons]
      refine congrArg₂ List.cons ?_ ?_
      · rw [maxComb_fin]
        cases x <;> simp [bumpQ]
      · have hcomp : (List.range xs.length).map ((fun i => F64.fin (g i)) ∘ Nat.succ)
            = (List.range xs.length).map (fun i => F64.fin (g (i + 1))) := by
          refine List.map_congr_left ?_
          intro i _
          simp
        rw [hcomp, ih (fun i => g (i + 1))]
        refine List.map_congr_left ?_
        intro i hi
        simp [Function.comp, bumpQ]

theorem scaleComb_fin (M : ℚ) (x : F64) (pls : List Player) (p : Position)
    (i : ℕ) (hM : specMaxQ pls p i = M) :
    scaleComb (F64.fin M) x = specNormOne pls p i x := by
  subst hM
  simp only [scaleComb, specNormOne, F64.gt, F64.lt]
  by_cases h : 0 < specMaxQ pls p i <;>
    by_cases hb : x.is_finite = true <;>
    simp [h, hb]

/-! ## Normalization: spec-side bookkeeping lemmas -/

theorem firstLen_nil (p : Position) : firstLen [] p = none := rfl

theorem specMaxQ_nil (p : Position) (i : ℕ) : specMaxQ [] p i = 0 := rfl

theorem firstLen_append_one (seen : List Player) (pl : Player) (p : Position) :
    firstLen (seen ++ [pl]) p
      = match firstLen seen p with
        | some n => some n
        | none => (getM pl.metrics p).map List.length := by
  unfold firstLen
  rw [List.filterMap_append]
  cases hf : (seen.filterMap (fun pl2 => (getM pl2.metrics p).map List.length)) with
  | nil => cases hg : getM pl.metrics p <;> simp [List.filterMap, hg]
  | cons a l => simp

theorem specMaxQ_append_one_none (seen : List Player) (pl : Player)
    (p : Position) (i : ℕ) (h : finAt pl p i = none) :
    specMaxQ (seen ++ [pl]) p i = specMaxQ seen p i := by
  unfold specMaxQ
  rw [List.filterMap_append]
  simp [List.filterMap, h]

theorem specMaxQ_append_one_some (seen : List Player) (pl : Player)
    (p : Position) (i : ℕ) (q : ℚ) (h : finAt pl p i = some q) :
    specMaxQ (seen ++ [pl]) p i = max (specMaxQ seen p i) q := by
  unfold specMaxQ
  rw [List.filterMap_append]
  simp [List.filterMap, h, List.foldl_append]

theorem specMaxQ_of_firstLen_none (seen : List Player) (p : Position)
    (h : firstLen seen p = none) (i : ℕ) : specMaxQ seen p i = 0 := by
  unfold firstLen at h
  rw [List.head?_eq_none_iff] at h
  have hnil : seen.filterMap (fun pl => finAt pl p i) = [] := by
    rw [List.filterMap_eq_nil_iff] at h ⊢
    intro pl hpl
    have := h pl hpl
    rw [Option.map_eq_none'] at this
    simp [finAt, this]
  unfold specMaxQ
  rw [hnil]
  rfl

theorem firstLen_of_holder (pls : List Player) (pl : Player) (p : Position)
    (v : List F64) (hpl : pl ∈ pls) (hget : getM pl.metrics p = some v)
    (hu : ∀ a ∈ pls, ∀ b ∈ pls, ∀ p2 v2 v3, getM a.metrics p2 = some v2 →
      getM b.metrics p2 = some v3 → v2.length = v3.length) :
    firstLen pls p = some v.length := by
  unfold firstLen
  have hne : pls.filterMap (fun pl2 => (getM pl2.metrics p).map List.length) ≠ [] := by
    intro hx
    rw [List.filterMap_eq_nil_iff] at hx
    have := hx pl hpl
    rw [hget] at this
    cases this
  cases hn : (pls.filterMap (fun pl2 => (getM pl2.metrics p).map List.length)).head? with
  | none => exact absurd (List.head?_eq_none_iff.mp hn) hne
  | some n =>
      have hmem : n ∈ pls.filterMap (fun pl2 => (getM pl2.metrics p).map List.length) :=
        List.mem_of_mem_head? (by simp [hn])
      obtain ⟨pl0, hpl0, hmap⟩ := List.mem_filterMap.mp hmem
      rw [Option.map_eq_some'] at hmap
      obtain ⟨v0, hv0, hlen0⟩ := hmap
      rw [show v.length = n from (hu pl hpl pl0 hpl0 p v v0 hget hv0).trans hlen0]

/-! ## Normalization: the first phase computes the spec-side maxima -/

theorem maxEntryStep_eq (acc : Metrics) (pv : Position × List F64)
    (hlc : ∀ w, getM acc pv.1 = some w → pv.2.length = w.length) :
    maxEntryStep acc pv
      = some (insertM acc pv.1
          (List.zipWith maxComb
            ((getM acc pv.1).getD (List.replicate pv.2.length (F64.fin 0)))
            pv.2)) := by
  unfold maxEntryStep
  cases hget : getM acc pv.1 with
  | none =>
      dsimp only
      rw [updateMax_eq pv.2 _ (by simp)]
      simp
  | some w =>
      have hl := hlc w hget
      dsimp only
      rw [updateMax_eq pv.2 w (le_of_eq hl)]
      rw [hl, List.drop_length]
      simp

theorem entries_fold (entries : List (Position × List F64)) :
    ∀ (acc : Metrics),
      (entries.map Prod.fst).Nodup →
      (∀ pv ∈ entries, ∀ w, getM acc pv.1 = some w → pv.2.length = w.length) →
      ∃ acc2, foldlMO maxEntryStep acc entries = some acc2 ∧
        (∀ p, (∀ pv ∈ entries, pv.1 ≠ p) → getM acc2 p = getM acc p) ∧
        (∀ pv ∈ entries, getM acc2 pv.1
          = some (List.zipWith maxComb
              ((getM acc pv.1).getD (List.replicate pv.2.length (F64.fin 0)))
              pv.2)) := by
  induction entries with
  | nil =>
      intro acc _ _
      exact ⟨acc, rfl, fun p _ => rfl, by simp⟩
  | cons pv rest ih =>
      intro acc hnd hlc
      rw [List.map_cons, List.nodup_cons] at hnd
      have hstep := maxEntryStep_eq acc pv
        (fun w hw => hlc pv (List.mem_cons_self _ _) w hw)
      have hkey : ∀ pv2 ∈ rest, pv2.1 ≠ pv.1 := by
        intro pv2 hpv2 he
        exact hnd.1 (he ▸ List.mem_map_of_mem Prod.fst hpv2)
      have hacc1 : ∀ pv2 ∈ rest,
          getM (insertM acc pv.1
            (List.zipWith maxComb
              ((getM acc pv.1).getD (List.replicate pv.2.length (F64.fin 0)))
              pv.2)) pv2.1
            = getM acc pv2.1 := by
        intro pv2 hpv2
        exact getM_insertM_ne _ _ _ _ (fun he => hkey pv2 hpv2 he.symm)
      obtain ⟨acc2, hfold, hunt, hent⟩ := ih
        (insertM acc pv.1
          (List.zipWith maxComb
            ((getM acc pv.1).getD (List.replicate pv.2.length (F64.fin 0)))
            pv.2))
        hnd.2
        (fun pv2 h2 w hw =>
          hlc pv2 (List.mem_cons_of_mem _ h2) w (by rwa [hacc1 pv2 h2] at hw))
      refine ⟨acc2, ?_, ?_, ?_⟩
      · simp [foldlMO, hstep, hfold]
      · intro p hp
        rw [hunt p (fun pv2 h2 => hp pv2 (List.mem_cons_of_mem _ h2))]
        exact getM_insertM_ne _ _ _ _ (hp pv (List.mem_cons_self _ _))
      · intro pv2 h2
        rcases List.mem_cons.mp h2 with h3 | h3
        · subst h3
          rw [hunt pv2.1 hkey, getM_insertM_self]
        · rw [hent pv2 h3, hacc1 pv2 h3]

/-- Processing one player's metric entries preserves the max invariant,
moving the player from "unseen" to "seen". -/
theorem maxInv_step (seen : List Player) (pl : Player) (acc : Metrics)
    (hnd : (pl.metrics.map Prod.fst).Nodup)
    (hlen : ∀ p v n, getM pl.metrics p = some v → firstLen seen p = some n →
      v.length = n)
    (hinv : MaxInv acc seen) :
    ∃ acc2, foldlMO maxEntryStep acc pl.metrics = some acc2 ∧
      MaxInv acc2 (seen ++ [pl]) := by
  have hlc : ∀ pv ∈ pl.metrics, ∀ w, getM acc pv.1 = some w →
      pv.2.length = w.length := by
    intro pv hpv w hw
    have hget : getM pl.metrics pv.1 = some pv.2 := getM_of_mem_nodup _ pv hpv hnd
    have hw2 := hinv pv.1
    rw [hw] at hw2
    cases hfl : firstLen seen pv.1 with
    | none => rw [hfl] at hw2; cases hw2
    | some n =>
        rw [hfl] at hw2
        simp only [Option.map_some', Option.some_inj] at hw2
        rw [hlen pv.1 pv.2 n hget hfl, hw2]
        simp
  obtain ⟨acc2, hfold, hunt, hent⟩ := entries_fold pl.metrics acc hnd hlc
  refine ⟨acc2, hfold, ?_⟩
  intro p
  cases hpl : getM pl.metrics p with
  | none =>
      have hnokey : ∀ pv ∈ pl.metrics, pv.1 ≠ p := by
        intro pv hpv he
        have hh := getM_of_mem_nodup _ pv hpv hnd
        rw [he, hpl] at hh
        cases hh
      have hfa : ∀ i, specMaxQ (seen ++ [pl]) p i = specMaxQ seen p i :=
        fun i => specMaxQ_append_one_none seen pl p i (by simp [finAt, hpl])
      rw [hunt p hnokey, hinv p, firstLen_append_one]
      cases hfl : firstLen seen p with
      | some n => simp [hfa]
      | none => simp [hpl]
  | some v =>
      have hpv : (p, v) ∈ pl.metrics := mem_of_getM _ _ _ hpl
      have hq := hent (p, v) hpv
      rw [hq]
      have hfa : ∀ i, specMaxQ (seen ++ [pl]) p i
          = bumpQ (fun j => specMaxQ seen p j) v i := by
        intro i
        cases hvi : v[i]? with
        | none =>
            rw [specMaxQ_append_one_none seen pl p i (by simp [finAt, hpl, hvi])]
            simp [bumpQ, hvi]
        | some x =>
            cases x with
            | fin q =>
                rw [specMaxQ_append_one_some seen pl p i q
                  (by simp [finAt, hpl, hvi])]
                simp [bumpQ, hvi]
            | inf =>
                rw [specMaxQ_append_one_none seen pl p i
                  (by simp [finAt, hpl, hvi])]
                simp [bumpQ, hvi]
            | neginf =>
                rw [specMaxQ_append_one_none seen pl p i
                  (by simp [finAt, hpl, hvi])]
                simp [bumpQ, hvi]
            | nan =>
                rw [specMaxQ_append_one_none seen pl p i
                  (by simp [finAt, hpl, hvi])]
                simp [bumpQ, hvi]
      rw [firstLen_append_one]
      cases hfl : firstLen seen p with
      | none =>
          have haccp : getM acc p = none := by rw [hinv p, hfl]; rfl
          have hzero : ∀ i, specMaxQ seen p i = 0 :=
            specMaxQ_of_firstLen_none seen p hfl
          rw [haccp]
          simp only [Option.getD_none]
          have hrep : List.replicate v.length (F64.fin 0)
              = (List.range v.length).map (fun i => F64.fin ((fun _ => (0 : ℚ)) i)) := by
            simp [List.map_const']
          rw [hrep, zipWith_maxComb_range v (fun _ => (0 : ℚ))]
          simp only [hpl, Option.map_some']
          refine congrArg some (List.map_congr_left ?_)
          intro i hi
          rw [hfa i]
          have : bumpQ (fun j => specMaxQ seen p j) v i = bumpQ (fun _ => (0 : ℚ)) v i := by
            unfold bumpQ
            cases v[i]? with
            | none => simp [hzero]
            | some x => cases x <;> simp [hzero]
          rw [this]
      | some n =>
          have hvn : v.length = n := hlen p v n hpl hfl
          subst hvn
          have haccp : getM acc p
              = some ((List.range v.length).map
                  (fun i => F64.fin (specMaxQ seen p i))) := by
            rw [hinv p, hfl]
            rfl
          rw [haccp]
          simp only [Option.getD_some]
          rw [zipWith_maxComb_range v (fun i => specMaxQ seen p i)]
          simp only [Option.map_some']
          refine congrArg some (List.map_congr_left ?_)
          intro i hi
          rw [hfa i]

/-- Folding the first normalization phase over a list of still-unseen
players preserves the max invariant. -/
theorem computeMax_go (rest : List Player) :
    ∀ (seen : List Player) (acc : Metrics),
      (∀ pl ∈ rest, (pl.metrics.map Prod.fst).Nodup) →
      (∀ pl ∈ rest, ∀ p v n, getM pl.metrics p = some v →
        firstLen seen p = some n → v.length = n) →
      (∀ pl ∈ rest, ∀ pl2 ∈ rest, ∀ p v v2, getM pl.metrics p = some v →
        getM pl2.metrics p = some v2 → v.length = v2.length) →
      MaxInv acc seen →
      ∃ maxm,
        foldlMO (fun a pl2 => foldlMO maxEntryStep a pl2.metrics) acc rest
          = some maxm ∧ MaxInv maxm (seen ++ rest) := by
  induction rest with
  | nil =>
      intro seen acc _ _ _ hinv
      exact ⟨acc, rfl, by simpa using hinv⟩
  | cons pl rest ih =>
      intro seen acc hnd hseen hpair hinv
      obtain ⟨acc2, hfold, hinv2⟩ := maxInv_step seen pl acc
        (hnd pl (List.mem_cons_self _ _))
        (hseen pl (List.mem_cons_self _ _)) hinv
      have hseen2 : ∀ pl2 ∈ rest, ∀ p v n, getM pl2.metrics p = some v →
          firstLen (seen ++ [pl]) p = some n → v.length = n := by
        intro pl2 h2 p v n hget hfl
        rw [firstLen_append_one] at hfl
        cases hfl0 : firstLen seen p with
        | some m =>
            rw [hfl0] at hfl
            simp only [Option.some_inj] at hfl
            exact hfl ▸ hseen pl2 (List.mem_cons_of_mem _ h2) p v m hget hfl0
        | none =>
            rw [hfl0] at hfl
            simp only [Option.map_eq_some'] at hfl
            obtain ⟨v0, hv0, hlen0⟩ := hfl
            rw [← hlen0]
            exact hpair pl2 (List.mem_cons_of_mem _ h2) pl
              (List.mem_cons_self _ _) p v v0 hget hv0
      obtain ⟨maxm, hf2, hinvf⟩ := ih (seen ++ [pl]) acc2
        (fun x hx => hnd x (List.mem_cons_of_mem _ hx))
        hseen2
        (fun a ha b hb => hpair a (List.mem_cons_of_mem _ ha) b
          (List.mem_cons_of_mem _ hb))
        hinv2
      refine ⟨maxm, ?_, ?_⟩
      · simp [foldlMO, hfold, hf2]
      · intro p
        have := hinvf p
        simpa [List.append_assoc] using this

/-- The Bool well-formedness checks, in `Prop` form. -/
theorem keysNodupB_spec (pls : List Player) (h : keysNodupB pls = true) :
    ∀ pl ∈ pls, (pl.metrics.map Prod.fst).Nodup := by
  intro pl hpl
  rw [keysNodupB, List.all_eq_true] at h
  simpa using h pl hpl

theorem uniformLensB_spec (pls : List Player) (h : uniformLensB pls = true) :
    ∀ pl ∈ pls, ∀ pl2 ∈ pls, ∀ p v v2, getM pl.metrics p = some v →
      getM pl2.metrics p = some v2 → v.length = v2.length := by
  intro pl hpl pl2 hpl2 p v v2 hv hv2
  rw [uniformLensB, List.all_eq_true] at h
  have h1 := h pl hpl
  rw [List.all_eq_true] at h1
  have h2 := h1 pl2 hpl2
  rw [List.all_eq_true] at h2
  have h3 := h2 (p, v) (mem_of_getM _ _ _ hv)
  rw [List.all_eq_true] at h3
  have h4 := h3 (p, v2) (mem_of_getM _ _ _ hv2)
  simp at h4
  exact h4

/-- Under well-formedness, the first phase of `normalize_metrics` succeeds
and computes exactly the spec-side maxima. -/
theorem computeMax_closed (pls : List Player)
    (hnd : keysNodupB pls = true) (hu : uniformLensB pls = true) :
    ∃ maxm, computeMax pls = some maxm ∧ MaxInv maxm pls := by
  obtain ⟨maxm, hf, hinv⟩ := computeMax_go pls [] []
    (keysNodupB_spec pls hnd)
    (fun pl _ p v n _ hfl => by rw [firstLen_nil] at hfl; cases hfl)
    (uniformLensB_spec pls hu)
    (fun p => rfl)
  exact ⟨maxm, hf, by simpa using hinv⟩

/-! ## Normalization: the second phase rescales to the spec values -/

theorem scaleComb_spec (pls : List Player) (p : Position) (i : ℕ) (x : F64) :
    scaleComb (F64.fin (specMaxQ pls p i)) x = specNormOne pls p i x := by
  simp only [scaleComb, specNormOne, F64.gt, F64.lt]
  by_cases h : 0 < specMaxQ pls p i <;>
    by_cases hb : x.is_finite = true <;>
    simp [h, hb]

theorem normalizePlayer_eq (pls : List Player) (maxm : Metrics)
    (hinv : MaxInv maxm pls)
    (hu : ∀ a ∈ pls, ∀ b ∈ pls, ∀ p v v2, getM a.metrics p = some v →
      getM b.metrics p = some v2 → v.length = v2.length)
    (pl : Player) (hpl : pl ∈ pls)
    (hnd : (pl.metrics.map Prod.fst).Nodup) :
    normalizePlayer maxm pl
      = some { pl with
          metrics := pl.metrics.map (fun pv => (pv.1, specNormVec pls pv.1 pv.2)) } := by
  unfold normalizePlayer
  rw [mapMO_eq_map _ (fun pv => (pv.1, specNormVec pls pv.1 pv.2)) _ ?_]
  · rfl
  · intro pv hpv
    have hget : getM pl.metrics pv.1 = some pv.2 :=
      getM_of_mem_nodup _ pv hpv hnd
    have hfl : firstLen pls pv.1 = some pv.2.length :=
      firstLen_of_holder pls pl pv.1 pv.2 hpl hget hu
    have hmax : getM maxm pv.1
        = some ((List.range pv.2.length).map
            (fun i => F64.fin (specMaxQ pls pv.1 i))) := by
      rw [hinv pv.1, hfl]
      rfl
    rw [hmax]
    dsimp only
    rw [scaleVec_eq pv.2 _ (by simp)]
    simp only [Option.map_some', Option.some_inj]
    refine congrArg (fun v => (pv.1, v)) ?_
    rw [show specNormVec pls pv.1 pv.2
        = List.zipWith (fun i x => specNormOne pls pv.1 i x)
            (List.range pv.2.length) pv.2 from rfl]
    rw [List.zipWith_map_left]
    have hfun : (fun a b => scaleComb (F64.fin (specMaxQ pls pv.1 a)) b)
        = fun i x => specNormOne pls pv.1 i x := by
      funext a b
      exact scaleComb_spec pls pv.1 a b
    rw [hfun]

/-- Under well-formedness, `normalize_metrics` succeeds and produces
exactly the spec-side normalization `normalize_spec`. -/
theorem normalize_metrics_closed (reg : Registry)
    (hnd : keysNodupB (reg.map Prod.snd) = true)
    (hu : uniformLensB (reg.map Prod.snd) = true) :
    normalize_metrics reg = some (normalize_spec reg) := by
  obtain ⟨maxm, hcm, hinv⟩ := computeMax_closed (reg.map Prod.snd) hnd hu
  unfold normalize_metrics
  rw [hcm]
  dsimp only [Option.bind]
  rw [mapMO_eq_map _
    (fun np => (np.1,
      { np.2 with
        metrics := np.2.metrics.map
            (fun pv => (pv.1, specNormVec (reg.map Prod.snd) pv.1 pv.2)) })) _ ?_]
  · rfl
  · intro np hnp
    rw [normalizePlayer_eq (reg.map Prod.snd) maxm hinv
      (uniformLensB_spec _ hu) np.2 (List.mem_map_of_mem Prod.snd hnp)
      (keysNodupB_spec _ hnd np.2 (List.mem_map_of_mem Prod.snd hnp))]
    rfl

/-- C2: `normalize_metrics` rescales every metric value in place: for every
player and every `(position, index)`, when the elementwise maximum of that
index over all players holding the position (over finite values, with the
code's `0.0` floor) is positive and the player's value is finite, the value
is divided by that maximum, and otherwise it is set to `0.0` — this is
`normalize_spec`.  The hypotheses are the well-formedness of the `HashMap`
model (distinct keys) and equal vector lengths per position, under which
the indexing of the loops stays in bounds.  In particular, on the
two-player registry `A = [10,20,30]`, `B = [20,10,40]` it yields
`A = [0.5, 1.0, 0.75]`, `B = [1.0, 0.5, 1.0]`. -/
theorem c2_normalize_rescales (reg : Registry)
    (hnd : keysNodupB (reg.map Prod.snd) = true)
    (hu : uniformLensB (reg.map Prod.snd) = true) :
    normalize_metrics reg = some (normalize_spec reg) ∧
    normalize_metrics demoReg2
      = some [("Player A",
          ⟨"Player A", [Position.Wing],
            [(Position.Wing, [F64.fin (1/2), F64.fin 1, F64.fin (3/4)])]⟩),
         ("Player B",
          ⟨"Player B", [Position.Wing],
            [(Position.Wing, [F64.fin 1, F64.fin (1/2), F64.fin 1])]⟩)] := by
  refine ⟨normalize_metrics_closed reg hnd hu, ?_⟩
  rw [normalize_metrics_closed demoReg2 (by decide) (by decide)]
  norm_num [normalize_spec, demoReg2, demoWingA, demoWingB, specNormVec,
    specNormOne, specMaxQ, finAt, getM, List.find?, F64.div, F64.is_finite,
    List.range_succ, max_def, List.filterMap_cons, List.filterMap_nil]

theorem c2_witness :
    (keysNodupB (demoReg2.map Prod.snd) = true ∧
      uniformLensB (demoReg2.map Prod.snd) = true) ∧
    normalize_metrics demoReg2 = some (normalize_spec demoReg2) :=
  ⟨⟨by decide, by decide⟩,
   (c2_normalize_rescales demoReg2 (by decide) (by decide)).1⟩

/-- C10: `normalize_metrics` performs only in-bounds indexing (no panic,
i.e. no `none` in the model) on every well-formed registry in which all
players' metric vectors for the same position have equal length; the
precondition is necessary, because the per-position max vector is sized
from the first vector encountered, and the concrete registry `mixedReg`
mixing a 5-element and a 10-element Wing vector (the shapes produced by a
single-wing row and a dual `L/R` row) indexes past the end of the max
vector (`none`). -/
theorem c10_normalize_inbounds (reg : Registry)
    (hnd : keysNodupB (reg.map Prod.snd) = true)
    (hu : uniformLensB (reg.map Prod.snd) = true) :
    (normalize_metrics reg).isSome = true ∧
    normalize_metrics mixedReg = none := by
  refine ⟨?_, by decide⟩
  rw [normalize_metrics_closed reg hnd hu]
  rfl

theorem c10_witness :
    (keysNodupB (demoQueryReg.map Prod.snd) = true ∧
      uniformLensB (demoQueryReg.map Prod.snd) = true) ∧
    (normalize_metrics demoQueryReg).isSome = true :=
  ⟨⟨by decide, by decide⟩,
   (c10_normalize_inbounds demoQueryReg (by decide) (by decide)).1⟩

end NHL
